import Mathlib

/-!
Shallow embedding of `crates/lock/src/local_locker.rs` (the `LocalLocker`
single-node lock table) and verification of the specification's claims
about it.

Modelling conventions:
* Rust `HashMap<K, V>` is modelled as an association list with unique keys
  (`findEntry` / `insertEntry` / `removeEntry` give lookup, replace-or-add,
  and delete; iteration over the map is iteration over the list).
* `Instant` timestamps are modelled as `Nat`; every operation that reads
  the clock takes an explicit `now : Nat` argument, and
  `Instant::duration_since` (saturating) is `Nat` truncated subtraction.
* `std::io::Result<bool>` is `Except String Bool`.
* An operation that can panic (`Option::unwrap` on `None`) returns
  `Option (Except String Bool × LocalLocker)`, with `none` for a panic:
  a panicking call produces no successor state.
* The unbounded probe loops of `refresh` and the targeted mode of
  `force_unlock` advance only while the probed key is present in
  `lock_uid`, which never changes during the loop; since the probed keys
  are pairwise distinct, at most `lock_uid.length` probes can succeed, so
  running the loops on fuel `lock_uid.length + 1` is exact (see
  `refresh_isSome` / `force_unlock_isSome` below).
-/

namespace RustFSLock

/-- One lock holder record, `LockRequesterInfo` from the source
(timestamps as `Nat`). -/
structure LockRequesterInfo where
  name : String
  writer : Bool
  uid : String
  time_stamp : Nat
  time_last_refresh : Nat
  source : String
  group : Bool
  owner : String
  quorum : Nat
  idx : Nat
deriving DecidableEq

/-- Argument record `LockArgs` passed to every operation. -/
structure LockArgs where
  uid : String
  resources : List String
  owner : String
  source : String
  quorum : Nat
deriving DecidableEq

/-- Association-list lookup, modelling `HashMap::get`. -/
def findEntry {β : Type} (k : String) : List (String × β) → Option β
  | [] => none
  | (k', v) :: rest => if k' = k then some v else findEntry k rest

/-- Association-list insert-or-replace, modelling `HashMap::insert`. -/
def insertEntry {β : Type} (k : String) (v : β) : List (String × β) → List (String × β)
  | [] => [(k, v)]
  | (k', v') :: rest => if k' = k then (k, v) :: rest else (k', v') :: insertEntry k v rest

/-- Association-list delete, modelling `HashMap::remove`. -/
def removeEntry {β : Type} (k : String) : List (String × β) → List (String × β)
  | [] => []
  | (k', v') :: rest => if k' = k then rest else (k', v') :: removeEntry k rest

/-- The `LocalLocker` state: the lock table and the uid reverse index. -/
structure LocalLocker where
  lock_map : List (String × List LockRequesterInfo)
  lock_uid : List (String × String)
deriving DecidableEq

/-- `LocalLocker::new`, both maps empty. -/
def LocalLocker.new : LocalLocker := ⟨[], []⟩

/-- `MAX_DELETE_LIST` from the source. -/
def MAX_DELETE_LIST : Nat := 1000

/-- `format_uuid` appends the decimal rendering of `idx` to `s`
(`s.push_str(&idx.to_string())`). -/
def format_uuid (s : String) (idx : Nat) : String := s ++ Nat.repr idx

/-- `is_write_lock`: `lri.len() == 1 && lri[0].writer`. -/
def is_write_lock (lri : List LockRequesterInfo) : Bool :=
  lri.length == 1 && (match lri.head? with | some l => l.writer | none => false)

/-- `can_take_lock`: fold of `!contains_key && acc` over the batch. -/
def can_take_lock (s : LocalLocker) (resources : List String) : Bool :=
  resources.foldl (fun acc x => (findEntry x s.lock_map).isNone && acc) true

/-- The writer record inserted by `lock` for `resource` at batch position
`idx` (`..Default::default()` fills the two timestamps with `now`). -/
def mkWriter (resource : String) (args : LockArgs) (idx now : Nat) : LockRequesterInfo :=
  { name := resource, writer := true, uid := args.uid, time_stamp := now,
    time_last_refresh := now, source := args.source,
    group := decide (1 < args.resources.length), owner := args.owner,
    quorum := args.quorum, idx := idx }

/-- One step of the insertion loop of `lock`: insert the writer record and
the reverse-index entry for the pair `(idx, resource)`. -/
def lockStep (args : LockArgs) (now : Nat) (st : LocalLocker) (p : Nat × String) : LocalLocker :=
  { lock_map := insertEntry p.2 [mkWriter p.2 args p.1 now] st.lock_map,
    lock_uid := insertEntry (format_uuid args.uid p.1) p.2 st.lock_uid }

/-- `Locker::lock`: exclusive multi-resource acquisition. -/
def lock (now : Nat) (s : LocalLocker) (args : LockArgs) : Except String Bool × LocalLocker :=
  if MAX_DELETE_LIST < args.resources.length then
    (Except.error "internal error: LocalLocker.lock called with more than 1000 resources", s)
  else if can_take_lock s args.resources = false then
    (Except.ok false, s)
  else
    (Except.ok true, args.resources.enum.foldl (lockStep args now) s)

/-- The shared `Vec::retain` loop of `unlock`/`runlock`: drop each record
matching the uid and owner filter, removing its reverse-index key with
`remove(&key).unwrap()` (`none` = the `unwrap` panicked), and set the
reply flag on every removal. -/
def retainUnlock (uid owner : String) :
    List LockRequesterInfo → List (String × String) → Bool →
    Option (List LockRequesterInfo × List (String × String) × Bool)
  | [], lu, reply => some ([], lu, reply)
  | lri :: rest, lu, reply =>
    if lri.uid = uid ∧ (owner = "" ∨ lri.owner = owner) then
      match findEntry (format_uuid uid lri.idx) lu with
      | some _ => retainUnlock uid owner rest (removeEntry (format_uuid uid lri.idx) lu) true
      | none => none
    else
      match retainUnlock uid owner rest lu reply with
      | some (kept, lu', reply') => some (lri :: kept, lu', reply')
      | none => none

/-- The per-resource loop of `unlock`, threading the reply flag and the
accumulated `err_info` diagnostic string. -/
def unlockGo (uid owner : String) :
    List String → LocalLocker → Bool → String → Option (Bool × String × LocalLocker)
  | [], s, reply, err => some (reply, err, s)
  | resource :: rest, s, reply, err =>
    match findEntry resource s.lock_map with
    | none => unlockGo uid owner rest s reply err
    | some lris =>
      if is_write_lock lris then
        match retainUnlock uid owner lris s.lock_uid reply with
        | none => none
        | some (kept, lu', reply') =>
          let lm := if kept.isEmpty then removeEntry resource s.lock_map
                    else insertEntry resource kept s.lock_map
          unlockGo uid owner rest { lock_map := lm, lock_uid := lu' } reply' err
      else
        let err' := if err = "" then
            String.append "unlock attempted on a read locked entity: " resource
          else err ++ ", " ++ resource
        let s' := if lris.isEmpty then { s with lock_map := removeEntry resource s.lock_map }
                  else s
        unlockGo uid owner rest s' reply err'

/-- `Locker::unlock`. Note the source computes `err_info` but returns
`Ok(reply)`, discarding it. -/
def unlock (s : LocalLocker) (args : LockArgs) : Option (Except String Bool × LocalLocker) :=
  if MAX_DELETE_LIST < args.resources.length then
    some (Except.error "internal error: LocalLocker.unlock called with more than 1000 resources", s)
  else
    match unlockGo args.uid args.owner args.resources s false "" with
    | none => none
    | some (reply, _errinfo, s') => some (Except.ok reply, s')

/-- The reader record appended by `rlock` (`idx` and `group` stay at their
defaults, timestamps are `now`). -/
def mkReader (resource : String) (args : LockArgs) (now : Nat) : LockRequesterInfo :=
  { name := resource, writer := false, uid := args.uid, time_stamp := now,
    time_last_refresh := now, source := args.source, group := false,
    owner := args.owner, quorum := args.quorum, idx := 0 }

/-- `Locker::rlock`: shared single-resource acquisition. -/
def rlock (now : Nat) (s : LocalLocker) (args : LockArgs) : Except String Bool × LocalLocker :=
  match args.resources with
  | [resource] =>
    (match findEntry resource s.lock_map with
    | some lris =>
      if is_write_lock lris then (Except.ok false, s)
      else
        (Except.ok true,
          { lock_map := insertEntry resource (lris ++ [mkReader resource args now]) s.lock_map,
            lock_uid := insertEntry (format_uuid args.uid 0) resource s.lock_uid })
    | none =>
        (Except.ok true,
          { lock_map := insertEntry resource [mkReader resource args now] s.lock_map,
            lock_uid := insertEntry (format_uuid args.uid 0) resource s.lock_uid }))
  | _ => (Except.error "internal error: localLocker.RLock called with more than one resource", s)

/-- `Locker::runlock`: shared single-resource release (same `retain` loop
and possible `unwrap` panic as `unlock`). -/
def runlock (s : LocalLocker) (args : LockArgs) : Option (Except String Bool × LocalLocker) :=
  match args.resources with
  | [resource] =>
    (match findEntry resource s.lock_map with
    | some lris =>
      if is_write_lock lris then
        some (Except.error (String.append "runlock attempted on a write locked entity: " resource), s)
      else
        match retainUnlock args.uid args.owner lris s.lock_uid false with
        | none => none
        | some (kept, lu', reply) =>
          let lm := if kept.isEmpty then removeEntry resource s.lock_map
                    else insertEntry resource kept s.lock_map
          some (Except.ok reply, { lock_map := lm, lock_uid := lu' })
    | none => some (Except.ok false, s))
  | _ => some (Except.error "internal error: localLocker.RLock called with more than one resource", s)

/-- The probe loop of `refresh`: while the resource resolved at the
current index is still in `lock_map`, advance; on a `lock_map` miss remove
the reverse-index key at position 0 and report `idx > 0`; on a `lock_uid`
miss report `true`. -/
def refreshGo (uid : String) (lm : List (String × List LockRequesterInfo))
    (lu : List (String × String)) :
    Nat → Nat → String → Option (Bool × List (String × String))
  | 0, _, _ => none
  | fuel + 1, idx, resource =>
    match findEntry resource lm with
    | none => some (decide (0 < idx), removeEntry (format_uuid uid 0) lu)
    | some _ =>
      match findEntry (format_uuid uid (idx + 1)) lu with
      | none => some (true, lu)
      | some r => refreshGo uid lm lu fuel (idx + 1) r

/-- `Locker::refresh`. -/
def refresh (s : LocalLocker) (args : LockArgs) : Option (Except String Bool × LocalLocker) :=
  match findEntry (format_uuid args.uid 0) s.lock_uid with
  | none => some (Except.ok false, s)
  | some resource =>
    match refreshGo args.uid s.lock_map s.lock_uid (s.lock_uid.length + 1) 0 resource with
    | none => none
    | some (b, lu') => some (Except.ok b, { s with lock_uid := lu' })

/-- The record filter of the targeted `force_unlock` mode: a record is
removed when its uid matches and the owner filter is empty or matches. -/
def forceMatches (uid owner : String) (lri : LockRequesterInfo) : Prop :=
  lri.uid = uid ∧ (owner = "" ∨ lri.owner = owner)

instance (uid owner : String) (lri : LockRequesterInfo) :
    Decidable (forceMatches uid owner lri) := by
  unfold forceMatches; infer_instance

/-- The probe loop of the targeted `force_unlock` mode: retain records in
place in `lock_map`, collect resources left empty and reverse-index keys
to delete, and stop at the first reverse-index miss with `idx > 0`. -/
def forceGo (uid owner : String) (lu : List (String × String)) :
    Nat → Nat → List (String × List LockRequesterInfo) → List String → List String →
    Option (Bool × List (String × List LockRequesterInfo) × List String × List String)
  | 0, _, _, _, _ => none
  | fuel + 1, idx, lm, rmRes, rmIds =>
    match findEntry (format_uuid uid idx) lu with
    | none => some (decide (0 < idx), lm, rmRes, rmIds)
    | some resource =>
      match findEntry resource lm with
      | none => forceGo uid owner lu fuel (idx + 1) lm rmRes (rmIds ++ [format_uuid uid idx])
      | some lris =>
        let kept := lris.filter (fun lri => ¬ forceMatches uid owner lri)
        let rmIds' := rmIds ++
          (lris.filter (fun lri => forceMatches uid owner lri)).map
            (fun lri => format_uuid uid lri.idx)
        let lm' := insertEntry resource kept lm
        let rmRes' := if kept.isEmpty then rmRes ++ [resource] else rmRes
        forceGo uid owner lu fuel (idx + 1) lm' rmRes' rmIds'

/-- `Locker::force_unlock`. In the unconditional mode (`uid` empty) the
source looks records up with `get` (not `get_mut`), removes their
reverse-index keys, and removes the `lock_map` key only if the holder list
was already empty: the holder records themselves are never removed. -/
def force_unlock (s : LocalLocker) (args : LockArgs) : Option (Except String Bool × LocalLocker) :=
  if args.uid = "" then
    some (Except.ok true, args.resources.foldl (fun st resource =>
      match findEntry resource st.lock_map with
      | some lris =>
        { lock_map := if lris.isEmpty then removeEntry resource st.lock_map else st.lock_map,
          lock_uid := lris.foldl (fun lu lri => removeEntry (format_uuid lri.uid lri.idx) lu)
            st.lock_uid }
      | none => st) s)
  else
    match forceGo args.uid args.owner s.lock_uid (s.lock_uid.length + 1) 0 s.lock_map [] [] with
    | none => none
    | some (reply, lm, rmRes, rmIds) =>
      some (Except.ok reply,
        { lock_map := rmRes.foldl (fun m r => removeEntry r m) lm,
          lock_uid := rmIds.foldl (fun m k => removeEntry k m) s.lock_uid })

/-- The reverse-index keys of the records dropped by `expire_old_locks`
at clock `now` with the given TTL, in the order the sweep visits them. -/
def expiredIds (now interval : Nat) (s : LocalLocker) : List String :=
  s.lock_map.flatMap (fun p =>
    (p.2.filter (fun lri => interval < now - lri.time_last_refresh)).map
      (fun lri => format_uuid lri.uid lri.idx))

/-- `LocalLocker::expire_old_locks`: retain, in every resource's holder
list, the records refreshed within the TTL, removing the reverse-index key
of each dropped record. The `lock_map` keys themselves are never removed,
even when a holder list becomes empty. -/
def expire_old_locks (now : Nat) (s : LocalLocker) (interval : Nat) : LocalLocker :=
  { lock_map := s.lock_map.map (fun p =>
      (p.1, p.2.filter (fun lri => now - lri.time_last_refresh ≤ interval))),
    lock_uid := (expiredIds now interval s).foldl (fun lu k => removeEntry k lu) s.lock_uid }

/-- One state transition of the lock table: some operation was called (at
some clock value, with some arguments) and returned without panicking. -/
inductive Step : LocalLocker → LocalLocker → Prop where
  | oplock : ∀ (now : Nat) (s : LocalLocker) (args : LockArgs), Step s (lock now s args).2
  | opunlock : ∀ (s : LocalLocker) (args : LockArgs) (r : Except String Bool) (s' : LocalLocker),
      unlock s args = some (r, s') → Step s s'
  | oprlock : ∀ (now : Nat) (s : LocalLocker) (args : LockArgs), Step s (rlock now s args).2
  | oprunlock : ∀ (s : LocalLocker) (args : LockArgs) (r : Except String Bool) (s' : LocalLocker),
      runlock s args = some (r, s') → Step s s'
  | oprefresh : ∀ (s : LocalLocker) (args : LockArgs) (r : Except String Bool) (s' : LocalLocker),
      refresh s args = some (r, s') → Step s s'
  | opforce : ∀ (s : LocalLocker) (args : LockArgs) (r : Except String Bool) (s' : LocalLocker),
      force_unlock s args = some (r, s') → Step s s'
  | opexpire : ∀ (now : Nat) (s : LocalLocker) (interval : Nat),
      Step s (expire_old_locks now s interval)

/-- States reachable from a fresh `LocalLocker` by any sequence of
operations. -/
inductive Reachable : LocalLocker → Prop where
  | init : Reachable LocalLocker.new
  | step : ∀ {s s' : LocalLocker}, Reachable s → Step s s' → Reachable s'

/-- Invariant A for one holder sequence: all readers, or exactly one
writer. -/
def goodSeq (l : List LockRequesterInfo) : Prop :=
  (∀ lri ∈ l, lri.writer = false) ∨ (∃ lri, l = [lri] ∧ lri.writer = true)

/-- Invariant A for a whole lock table: every holder sequence bound in it
is all-readers or a single writer. -/
def invAmap (m : List (String × List LockRequesterInfo)) : Prop :=
  ∀ p ∈ m, goodSeq p.2

/-- Arguments of the concrete exclusive acquisition used in the traces:
uid `u1`, single resource `r`, owner `o`. -/
def argsW : LockArgs := { uid := "u1", resources := ["r"], owner := "o", source := "s", quorum := 3 }

/-- State after `lock` of `["r"]` by uid `u1` on a fresh table. -/
def sLock : LocalLocker := (lock 0 LocalLocker.new argsW).2

/-- Arguments of an unconditional (empty-uid) `force_unlock` of `["r"]`. -/
def argsF : LockArgs := { uid := "", resources := ["r"], owner := "", source := "", quorum := 0 }

/-- State after the unconditional `force_unlock` of `["r"]` on `sLock`:
the writer record is still in the table, the reverse index is empty. -/
def sForced : LocalLocker := ⟨[("r", [mkWriter "r" argsW 0 0])], []⟩

/-- State after `rlock` of `["r"]` by uid `u1` on a fresh table. -/
def sRead : LocalLocker := (rlock 0 LocalLocker.new argsW).2

/-- State after the unconditional `force_unlock` of `["r"]` on `sRead`:
the reader record is still in the table, the reverse index is empty. -/
def sReadForced : LocalLocker := ⟨[("r", [mkReader "r" argsW 0])], []⟩

/-- State after `expire_old_locks` (clock 1, TTL 0) on `sLock`: resource
`r` keeps its key with an empty holder list; the reverse index is empty. -/
def sExpired : LocalLocker := ⟨[("r", [])], []⟩

/-- A second requester attempting to lock `["r"]`. -/
def argsW2 : LockArgs := { uid := "u2", resources := ["r"], owner := "o", source := "s", quorum := 3 }

/-- A state for exercising `refresh`: uid `u` resolves position 0 to `A`
(still locked) and position 1 to `B` (no longer in the lock table). -/
def sC6 : LocalLocker :=
  ⟨[("A", [{ name := "A", writer := true, uid := "u", time_stamp := 0, time_last_refresh := 0,
             source := "s", group := true, owner := "o", quorum := 3, idx := 0 }])],
   [("u0", "A"), ("u1", "B")]⟩

/-- Arguments of `refresh` for uid `u` (the resource list is ignored). -/
def argsU : LockArgs := { uid := "u", resources := [], owner := "", source := "", quorum := 0 }

/-- An 11-resource exclusive batch for uid `u`: its position 10 produces
the reverse-index key `u10`. -/
def argsBig : LockArgs :=
  { uid := "u", resources := ["a0", "a1", "a2", "a3", "a4", "a5", "a6", "a7", "a8", "a9", "a10"],
    owner := "o", source := "s", quorum := 3 }

/-- State after the 11-resource `lock` by uid `u` on a fresh table. -/
def sBig : LocalLocker := (lock 0 LocalLocker.new argsBig).2

/-- A shared acquisition of `x` by uid `u1`: its position 0 also produces
the reverse-index key `u10`. -/
def argsX : LockArgs := { uid := "u1", resources := ["x"], owner := "o", source := "s", quorum := 3 }

/-- State after `rlock` of `["x"]` by uid `u1` on `sBig`. -/
def sBig2 : LocalLocker := (rlock 0 sBig argsX).2

/-- Claim C2 exactly as stated: over any state, a batch fails (with no
state change) precisely when some resource of the batch has at least one
holder; otherwise it succeeds and installs, for every batch position, a
single writer record and a reverse-index entry. -/
def lockClaimC2 : Prop :=
  ∀ (now : Nat) (s : LocalLocker) (args : LockArgs), args.resources.length ≤ 1000 →
    ((∃ r ∈ args.resources, ∃ lris, findEntry r s.lock_map = some lris ∧ lris ≠ []) →
      lock now s args = (Except.ok false, s)) ∧
    ((¬ ∃ r ∈ args.resources, ∃ lris, findEntry r s.lock_map = some lris ∧ lris ≠ []) →
      (lock now s args).1 = Except.ok true ∧
      ∀ (i : Nat) (h : i < args.resources.length),
        findEntry (format_uuid args.uid i) (lock now s args).2.lock_uid =
          some (args.resources.get ⟨i, h⟩) ∧
        ∃ lri, findEntry (args.resources.get ⟨i, h⟩) (lock now s args).2.lock_map = some [lri] ∧
          lri.writer = true ∧ lri.uid = args.uid ∧
          lri.group = decide (1 < args.resources.length))

/-- Claim C6 exactly as stated: the heartbeat returns `false` when
position 0 is unmapped; a walk ending at the first position `n` whose
resolved resource is missing from the lock table cleans up the
reverse-index entry of that stale position `n` and reports whether the
walk advanced past 0; a reverse-index miss after position 0 reports
`true`. -/
def refreshClaimC6 : Prop :=
  ∀ (s : LocalLocker) (args : LockArgs),
    (findEntry (format_uuid args.uid 0) s.lock_uid = none →
      refresh s args = some (Except.ok false, s)) ∧
    (∀ n : Nat,
      (∀ j, j < n → ∃ rj, findEntry (format_uuid args.uid j) s.lock_uid = some rj ∧
        (findEntry rj s.lock_map).isSome = true) →
      (∃ rn, findEntry (format_uuid args.uid n) s.lock_uid = some rn ∧
        findEntry rn s.lock_map = none) →
      refresh s args = some (Except.ok (decide (0 < n)),
        { s with lock_uid := removeEntry (format_uuid args.uid n) s.lock_uid })) ∧
    (∀ n : Nat, 1 ≤ n →
      (∀ j, j < n → ∃ rj, findEntry (format_uuid args.uid j) s.lock_uid = some rj ∧
        (findEntry rj s.lock_map).isSome = true) →
      findEntry (format_uuid args.uid n) s.lock_uid = none →
      refresh s args = some (Except.ok true, s))

/-- Decimal digit list of `n`, most significant first; reference function
used to prove `Nat.repr` injective. -/
def reprDigits (n : Nat) : List Char :=
  if _h : n < 10 then [Nat.digitChar n]
  else reprDigits (n / 10) ++ [Nat.digitChar (n % 10)]
termination_by n
decreasing_by exact Nat.div_lt_self (by omega) (by omega)

/-- Value of a most-significant-first decimal digit list. -/
def digitsVal (l : List Char) : Nat := l.foldl (fun a c => 10 * a + (c.toNat - 48)) 0

theorem sLock_eq : sLock = ⟨[("r", [mkWriter "r" argsW 0 0])], [("u10", "r")]⟩ := rfl

theorem sRead_eq : sRead = ⟨[("r", [mkReader "r" argsW 0])], [("u10", "r")]⟩ := rfl

theorem reachable_sLock : Reachable sLock :=
  Reachable.step Reachable.init (Step.oplock 0 LocalLocker.new argsW)

theorem force_sLock : force_unlock sLock argsF = some (Except.ok true, sForced) := rfl

theorem reachable_sForced : Reachable sForced :=
  Reachable.step reachable_sLock (Step.opforce sLock argsF (Except.ok true) sForced force_sLock)

theorem reachable_sRead : Reachable sRead :=
  Reachable.step Reachable.init (Step.oprlock 0 LocalLocker.new argsW)

theorem force_sRead : force_unlock sRead argsF = some (Except.ok true, sReadForced) := rfl

theorem reachable_sReadForced : Reachable sReadForced :=
  Reachable.step reachable_sRead (Step.opforce sRead argsF (Except.ok true) sReadForced force_sRead)

/-- C3: Invariant C is not preserved: in the reachable state `sForced`
(obtained by an exclusive `lock` of `r` by uid `u1` followed by an
unconditional `force_unlock` of `r`), the lock table still holds the
record with uid `u1` and batch index 0, yet the reverse index has no
entry for `(u1, 0)`. -/
theorem C3_invariantC_broken :
    Reachable sForced ∧
    findEntry "r" sForced.lock_map = some [mkWriter "r" argsW 0 0] ∧
    (mkWriter "r" argsW 0 0).uid = "u1" ∧ (mkWriter "r" argsW 0 0).idx = 0 ∧
    findEntry (format_uuid "u1" 0) sForced.lock_uid = none :=
  ⟨reachable_sForced, rfl, rfl, rfl, rfl⟩

/-- C4: the unconditional `force_unlock` of `["r"]` on a table where `r`
is write-locked returns `true` and removes the reverse-index entry, but
does not remove the holder record of `r` (the state keeps the full
`lock_map` unchanged), contradicting the claimed removal of every holder
record on every named resource. -/
theorem C4_force_unlock_keeps_record :
    force_unlock sLock argsF = some (Except.ok true, sForced) ∧
    sForced.lock_map = sLock.lock_map ∧
    findEntry "r" sForced.lock_map = some [mkWriter "r" argsW 0 0] :=
  ⟨rfl, rfl, rfl⟩

/-- C5: on a read-locked resource, `unlock` accumulates the diagnostic
message `unlock attempted on a read locked entity: r`, but the call
returns `Ok(false)` and the message is discarded, never surfaced as an
error. -/
theorem C5_unlock_error_not_surfaced :
    unlockGo "u1" "o" ["r"] sRead false "" =
      some (false, "unlock attempted on a read locked entity: r", sRead) ∧
    unlock sRead argsW = some (Except.ok false, sRead) :=
  ⟨rfl, rfl⟩

/-- C9: there are reachable states in which `unlock` (resp. `runlock`)
panics (the `unwrap` on the reverse-index removal fails), namely after an
unconditional `force_unlock` removed the reverse-index entry while
leaving the holder record in place. -/
theorem C9_unwrap_panic_reachable :
    Reachable sForced ∧ unlock sForced argsW = none ∧
    Reachable sReadForced ∧ runlock sReadForced argsW = none :=
  ⟨reachable_sForced, rfl, reachable_sReadForced, rfl⟩

/-- C10: the reverse-index key encoding is not injective: the distinct
pairs `(u1, 0)` and `(u, 10)` both encode to `u10`, and uid `u1`'s shared
acquisition of `x` overwrites uid `u`'s reverse-index entry for its batch
position 10, whose holder record is still in the table. -/
theorem C10_reverse_index_key_collision :
    format_uuid "u1" 0 = format_uuid "u" 10 ∧
    ("u1", (0 : Nat)) ≠ ("u", (10 : Nat)) ∧
    findEntry "u10" sBig.lock_uid = some "a10" ∧
    rlock 0 sBig argsX = (Except.ok true, sBig2) ∧
    findEntry "u10" sBig2.lock_uid = some "x" ∧
    findEntry "a10" sBig2.lock_map = some [mkWriter "a10" argsBig 10 0] :=
  ⟨rfl, by decide, rfl, rfl, rfl, rfl⟩

/-- C2, counterexample to the claim as stated: in the reachable state
`sExpired` the resource `r` is present with an empty holder list (zero
holders), yet a fresh exclusive acquisition of `["r"]` returns `false`
instead of the claimed `true`. -/
theorem C2_counterexample : ¬ lockClaimC2 := by
  intro h
  have h2 := (h 0 sExpired argsW2 (by decide)).2
  have hnone : ¬ ∃ r ∈ argsW2.resources,
      ∃ lris, findEntry r sExpired.lock_map = some lris ∧ lris ≠ [] := by
    rintro ⟨r, hr, lris, hfind, hne⟩
    have hr' : r = "r" := by
      have : argsW2.resources = ["r"] := rfl
      rw [this] at hr
      simpa using hr
    subst hr'
    have hc : findEntry "r" sExpired.lock_map = some ([] : List LockRequesterInfo) := rfl
    rw [hc] at hfind
    exact hne (Option.some.inj hfind).symm
  have hTrue := (h2 hnone).1
  have hFalse : (lock 0 sExpired argsW2).1 = Except.ok false := rfl
  rw [hFalse] at hTrue
  simp at hTrue

/-- C6, counterexample to the claim as stated: in state `sC6` the walk
for uid `u` finds position 0 live (`A`) and position 1 stale (`B` gone
from the table); the claim demands the stale entry `u1` be removed, but
`refresh` removes the entry `u0` of position 0 and keeps `u1`. -/
theorem C6_counterexample : ¬ refreshClaimC6 := by
  intro h
  have h2 := (h sC6 argsU).2.1 1
    (by
      intro j hj
      interval_cases j
      exact ⟨"A", rfl, rfl⟩)
    ⟨"B", rfl, rfl⟩
  have hact : refresh sC6 argsU =
      some (Except.ok true, { sC6 with lock_uid := [("u1", "B")] }) := rfl
  rw [hact] at h2
  have : ([("u1", "B")] : List (String × String)) =
      removeEntry (format_uuid "u" 1) sC6.lock_uid := by
    have := Option.some.inj h2
    have := congrArg Prod.snd this
    exact congrArg LocalLocker.lock_uid this
  exact absurd this (by decide)

theorem toDigitsCore_eq (fuel : Nat) : ∀ (n : Nat) (ds : List Char), n < fuel →
    Nat.toDigitsCore 10 fuel n ds = reprDigits n ++ ds := by
  induction fuel with
  | zero => intro n ds h; omega
  | succ f ih =>
    intro n ds h
    by_cases h10 : n < 10
    · have hdiv : n / 10 = 0 := Nat.div_eq_of_lt h10
      have hmod : n % 10 = n := Nat.mod_eq_of_lt h10
      rw [Nat.toDigitsCore, reprDigits]
      simp [hdiv, hmod, h10]
    · have hdiv : ¬ n / 10 = 0 := by
        intro hc
        exact h10 ((Nat.div_eq_zero_iff (by omega)).mp hc)
      have hlt : n / 10 < f := by
        have h1 : n / 10 < n := Nat.div_lt_self (by omega) (by omega)
        omega
      rw [Nat.toDigitsCore]
      simp only [hdiv, if_false]
      rw [ih (n / 10) _ hlt]
      conv_rhs => rw [reprDigits]
      simp [h10]

theorem digitChar_toNat (d : Nat) (h : d < 10) : (Nat.digitChar d).toNat = 48 + d := by
  interval_cases d <;> rfl

theorem digitsVal_append (l : List Char) (c : Char) :
    digitsVal (l ++ [c]) = 10 * digitsVal l + (c.toNat - 48) := by
  unfold digitsVal
  rw [List.foldl_append]
  rfl

theorem digitsVal_reprDigits (n : Nat) : digitsVal (reprDigits n) = n := by
  induction n using Nat.strong_induction_on with
  | _ n ih =>
    by_cases h : n < 10
    · rw [reprDigits]
      simp only [h, dite_true]
      unfold digitsVal
      simp [digitChar_toNat n h]
    · rw [reprDigits]
      simp only [h, dite_false]
      rw [digitsVal_append, ih (n / 10) (Nat.div_lt_self (by omega) (by omega)),
        digitChar_toNat (n % 10) (Nat.mod_lt _ (by omega))]
      omega

theorem reprDigits_inj {m n : Nat} (h : reprDigits m = reprDigits n) : m = n := by
  have hv := congrArg digitsVal h
  rwa [digitsVal_reprDigits, digitsVal_reprDigits] at hv

theorem toDigits_eq_reprDigits (n : Nat) : Nat.toDigits 10 n = reprDigits n := by
  rw [Nat.toDigits, toDigitsCore_eq (n + 1) n [] (Nat.lt_succ_self n)]
  simp

theorem nat_repr_inj {m n : Nat} (h : Nat.repr m = Nat.repr n) : m = n := by
  apply reprDigits_inj
  rw [← toDigits_eq_reprDigits, ← toDigits_eq_reprDigits]
  have hd := congrArg String.data h
  simpa [Nat.repr, List.asString] using hd

theorem string_append_left_cancel {a b c : String} (h : a ++ b = a ++ c) : b = c := by
  have hd := congrArg String.data h
  simp only [String.data_append] at hd
  have h2 := List.append_cancel_left hd
  cases b
  cases c
  exact congrArg String.mk h2

theorem format_uuid_inj_idx {uid : String} {i j : Nat}
    (h : format_uuid uid i = format_uuid uid j) : i = j := by
  unfold format_uuid at h
  have hr : Nat.repr i = Nat.repr j := string_append_left_cancel h
  exact nat_repr_inj hr

theorem findEntry_insertEntry_self {β : Type} (k : String) (v : β) (m : List (String × β)) :
    findEntry k (insertEntry k v m) = some v := by
  induction m with
  | nil => simp [insertEntry, findEntry]
  | cons p t ih =>
    obtain ⟨k', v'⟩ := p
    by_cases hk : k' = k
    · subst hk
      simp [insertEntry, findEntry]
    · simp [insertEntry, findEntry, hk, ih]

theorem findEntry_insertEntry_ne {β : Type} {k k' : String} (hne : k' ≠ k) (v : β)
    (m : List (String × β)) : findEntry k (insertEntry k' v m) = findEntry k m := by
  induction m with
  | nil => simp [insertEntry, findEntry, hne]
  | cons p t ih =>
    obtain ⟨k'', v''⟩ := p
    by_cases hk : k'' = k'
    · subst hk
      simp [insertEntry, findEntry, hne]
    · simp [insertEntry, findEntry, hk, ih]

theorem findEntry_removeEntry_ne {β : Type} {k k' : String} (hne : k' ≠ k)
    (m : List (String × β)) : findEntry k (removeEntry k' m) = findEntry k m := by
  induction m with
  | nil => simp [removeEntry]
  | cons p t ih =>
    obtain ⟨k'', v''⟩ := p
    by_cases hk : k'' = k'
    · subst hk
      simp [removeEntry, findEntry, hne, ih]
    · simp [removeEntry, findEntry, hk, ih]

theorem findEntry_none_removeEntry {β : Type} {k : String} (k' : String)
    {m : List (String × β)} (h : findEntry k m = none) :
    findEntry k (removeEntry k' m) = none := by
  induction m with
  | nil => simpa [removeEntry] using h
  | cons p t ih =>
    obtain ⟨k'', v''⟩ := p
    by_cases hk2 : k'' = k
    · simp [findEntry, hk2] at h
    · simp only [findEntry, hk2, if_false] at h
      by_cases hk : k'' = k'
      · simpa [removeEntry, hk] using h
      · simp [removeEntry, hk, findEntry, hk2, ih h]

theorem removeEntry_sublist {β : Type} (k : String) (m : List (String × β)) :
    List.Sublist (removeEntry k m) m := by
  induction m with
  | nil => simp [removeEntry]
  | cons p t ih =>
    obtain ⟨k', v'⟩ := p
    by_cases hk : k' = k
    · subst hk
      simp only [removeEntry, if_true]
      exact List.sublist_cons_self (k', v') t
    · simp only [removeEntry, hk, if_false]
      exact ih.cons₂ (k', v')

theorem findEntry_mem {β : Type} {k : String} {v : β} {m : List (String × β)}
    (h : findEntry k m = some v) : (k, v) ∈ m := by
  induction m with
  | nil => simp [findEntry] at h
  | cons p t ih =>
    obtain ⟨k', v'⟩ := p
    by_cases hk : k' = k
    · subst hk
      simp [findEntry] at h
      simp [h]
    · simp only [findEntry, hk, if_false] at h
      exact List.mem_cons_of_mem _ (ih h)

theorem mem_insertEntry {β : Type} {p : String × β} {k : String} {v : β}
    {m : List (String × β)} (h : p ∈ insertEntry k v m) : p = (k, v) ∨ p ∈ m := by
  induction m with
  | nil => simpa [insertEntry] using h
  | cons q t ih =>
    obtain ⟨k', v'⟩ := q
    by_cases hk : k' = k
    · subst hk
      simp only [insertEntry, if_true] at h
      rcases List.mem_cons.mp h with h1 | h1
      · exact Or.inl h1
      · exact Or.inr (List.mem_cons_of_mem _ h1)
    · simp only [insertEntry, hk, if_false] at h
      rcases List.mem_cons.mp h with h1 | h1
      · exact Or.inr (List.mem_cons.mpr (Or.inl h1))
      · rcases ih h1 with h2 | h2
        · exact Or.inl h2
        · exact Or.inr (List.mem_cons_of_mem _ h2)

theorem findEntry_eq_none_of_not_mem_keys {β : Type} {k : String} {m : List (String × β)}
    (h : k ∉ m.map Prod.fst) : findEntry k m = none := by
  induction m with
  | nil => simp [findEntry]
  | cons p t ih =>
    obtain ⟨k', v'⟩ := p
    simp only [List.map_cons, List.mem_cons, not_or] at h
    have hk : k' ≠ k := fun hc => h.1 hc.symm
    simp [findEntry, hk, ih h.2]

theorem findEntry_isSome_mem_keys {β : Type} {k : String} {m : List (String × β)}
    (h : (findEntry k m).isSome = true) : k ∈ m.map Prod.fst := by
  by_contra hc
  rw [findEntry_eq_none_of_not_mem_keys hc] at h
  simp at h

theorem findEntry_removeEntry_self {β : Type} {k : String} {m : List (String × β)}
    (hnd : (m.map Prod.fst).Nodup) : findEntry k (removeEntry k m) = none := by
  induction m with
  | nil => simp [removeEntry, findEntry]
  | cons p t ih =>
    obtain ⟨k', v'⟩ := p
    simp only [List.map_cons, List.nodup_cons] at hnd
    by_cases hk : k' = k
    · subst hk
      simp only [removeEntry, if_true]
      exact findEntry_eq_none_of_not_mem_keys hnd.1
    · simp [removeEntry, hk, findEntry, ih hnd.2]

theorem nodupKeys_insertEntry {β : Type} {k : String} {v : β} {m : List (String × β)}
    (hnd : (m.map Prod.fst).Nodup) : ((insertEntry k v m).map Prod.fst).Nodup := by
  induction m with
  | nil => simp [insertEntry]
  | cons p t ih =>
    obtain ⟨k', v'⟩ := p
    simp only [List.map_cons, List.nodup_cons] at hnd
    by_cases hk : k' = k
    · subst hk
      simpa [insertEntry] using hnd
    · simp only [insertEntry, hk, if_false, List.map_cons]
      refine List.nodup_cons.mpr ⟨?_, ih hnd.2⟩
      intro hc
      rcases List.mem_map.mp hc with ⟨q, hq, hq2⟩
      rcases mem_insertEntry hq with h1 | h1
      · exact hk (by rw [h1] at hq2; exact hq2.symm)
      · exact hnd.1 (hq2 ▸ List.mem_map.mpr ⟨q, h1, rfl⟩)

theorem nodupKeys_removeEntry {β : Type} {k : String} {m : List (String × β)}
    (hnd : (m.map Prod.fst).Nodup) : ((removeEntry k m).map Prod.fst).Nodup :=
  hnd.sublist ((removeEntry_sublist k m).map Prod.fst)

theorem findEntry_foldl_removeEntry_not_mem {β : Type} (ks : List String) :
    ∀ (m : List (String × β)) (k : String), k ∉ ks →
    findEntry k (ks.foldl (fun l k' => removeEntry k' l) m) = findEntry k m := by
  induction ks with
  | nil => intro m k _; rfl
  | cons a t ih =>
    intro m k hk
    simp only [List.mem_cons, not_or] at hk
    rw [List.foldl_cons, ih _ k hk.2, findEntry_removeEntry_ne (fun hc => hk.1 hc.symm)]

theorem findEntry_none_foldl_removeEntry {β : Type} (ks : List String) :
    ∀ (m : List (String × β)) (k : String), findEntry k m = none →
    findEntry k (ks.foldl (fun l k' => removeEntry k' l) m) = none := by
  induction ks with
  | nil => intro m k h; exact h
  | cons a t ih =>
    intro m k h
    exact ih _ k (findEntry_none_removeEntry a h)

theorem nodupKeys_foldl_removeEntry {β : Type} (ks : List String) :
    ∀ (m : List (String × β)), (m.map Prod.fst).Nodup →
    ((ks.foldl (fun l k' => removeEntry k' l) m).map Prod.fst).Nodup := by
  induction ks with
  | nil => intro m h; exact h
  | cons a t ih => intro m h; exact ih _ (nodupKeys_removeEntry h)

theorem findEntry_foldl_removeEntry_mem {β : Type} (ks : List String) :
    ∀ (m : List (String × β)) (k : String), k ∈ ks → (m.map Prod.fst).Nodup →
    findEntry k (ks.foldl (fun l k' => removeEntry k' l) m) = none := by
  induction ks with
  | nil => intro m k hk; simp at hk
  | cons a t ih =>
    intro m k hk hnd
    rcases List.mem_cons.mp hk with h1 | h1
    · subst h1
      by_cases ht : k ∈ t
      · exact ih _ k ht (nodupKeys_removeEntry hnd)
      · rw [List.foldl_cons, findEntry_foldl_removeEntry_not_mem t _ k ht]
        exact findEntry_removeEntry_self hnd
    · exact ih _ k h1 (nodupKeys_removeEntry hnd)

theorem keys_present_length_le {β : Type} (lu : List (String × β)) (n : Nat) (uid : String)
    (h : ∀ i, i ≤ n → (findEntry (format_uuid uid i) lu).isSome = true) :
    n + 1 ≤ lu.length := by
  have hinj : Function.Injective (format_uuid uid) := fun a b hab => format_uuid_inj_idx hab
  have hnd : ((List.range (n + 1)).map (format_uuid uid)).Nodup :=
    (List.nodup_range (n + 1)).map hinj
  have hsub : ((List.range (n + 1)).map (format_uuid uid)) ⊆ lu.map Prod.fst := by
    intro x hx
    rcases List.mem_map.mp hx with ⟨i, hi, rfl⟩
    exact findEntry_isSome_mem_keys (h i (by simpa [Nat.lt_succ_iff] using List.mem_range.mp hi))
  have := (hnd.subperm hsub).length_le
  simpa using this

theorem goodSeq_nil : goodSeq [] := Or.inl (by simp)

theorem goodSeq_sublist {l l' : List LockRequesterInfo} (hs : List.Sublist l' l)
    (h : goodSeq l) : goodSeq l' := by
  rcases h with h | ⟨lri, rfl, hw⟩
  · exact Or.inl fun x hx => h x (hs.subset hx)
  · cases hs with
    | cons _ h' =>
      rw [List.sublist_nil.mp h']
      exact goodSeq_nil
    | cons₂ _ h' =>
      rw [List.sublist_nil.mp h']
      exact Or.inr ⟨lri, rfl, hw⟩

theorem goodSeq_not_writelock {l : List LockRequesterInfo} (h : goodSeq l)
    (hw : is_write_lock l = false) : ∀ x ∈ l, x.writer = false := by
  rcases h with h | ⟨lri, rfl, hwr⟩
  · exact h
  · exfalso
    have : is_write_lock [lri] = lri.writer := by simp [is_write_lock]
    rw [this, hwr] at hw
    exact Bool.noConfusion hw

theorem goodSeq_append_reader {l : List LockRequesterInfo}
    (h : ∀ x ∈ l, x.writer = false) {r : LockRequesterInfo} (hr : r.writer = false) :
    goodSeq (l ++ [r]) := by
  refine Or.inl fun x hx => ?_
  rcases List.mem_append.mp hx with h1 | h1
  · exact h x h1
  · rw [List.mem_singleton.mp h1]
    exact hr

theorem invAmap_insert {m : List (String × List LockRequesterInfo)} {k : String}
    {v : List LockRequesterInfo} (h : invAmap m) (hv : goodSeq v) :
    invAmap (insertEntry k v m) := by
  intro p hp
  rcases mem_insertEntry hp with h1 | h1
  · rw [h1]
    exact hv
  · exact h p h1

theorem invAmap_remove {m : List (String × List LockRequesterInfo)} {k : String}
    (h : invAmap m) : invAmap (removeEntry k m) :=
  fun p hp => h p ((removeEntry_sublist k m).subset hp)

theorem invAmap_foldl_remove (ks : List String) :
    ∀ (m : List (String × List LockRequesterInfo)), invAmap m →
    invAmap (ks.foldl (fun m r => removeEntry r m) m) := by
  induction ks with
  | nil => intro m h; exact h
  | cons a t ih => intro m h; exact ih _ (invAmap_remove h)

theorem invAmap_goodSeq_of_find {m : List (String × List LockRequesterInfo)} {k : String}
    {lris : List LockRequesterInfo} (h : invAmap m) (hf : findEntry k m = some lris) :
    goodSeq lris := h (k, lris) (findEntry_mem hf)

theorem invAmap_foldl_lockStep (args : LockArgs) (now : Nat) (l : List (Nat × String)) :
    ∀ st : LocalLocker, invAmap st.lock_map →
    invAmap ((l.foldl (lockStep args now) st).lock_map) := by
  induction l with
  | nil => intro st h; exact h
  | cons p t ih =>
    intro st h
    refine ih _ ?_
    exact invAmap_insert h (Or.inr ⟨mkWriter p.2 args p.1 now, rfl, rfl⟩)

theorem invAmap_lock (now : Nat) (s : LocalLocker) (args : LockArgs)
    (h : invAmap s.lock_map) : invAmap (lock now s args).2.lock_map := by
  unfold lock
  split
  · exact h
  · split
    · exact h
    · exact invAmap_foldl_lockStep args now args.resources.enum s h

theorem retainUnlock_sublist (uid owner : String) (l : List LockRequesterInfo) :
    ∀ (lu : List (String × String)) (b : Bool)
    (kept : List LockRequesterInfo) (lu' : List (String × String)) (b' : Bool),
    retainUnlock uid owner l lu b = some (kept, lu', b') → List.Sublist kept l := by
  induction l with
  | nil =>
    intro lu b kept lu' b' h
    simp only [retainUnlock, Option.some.injEq, Prod.mk.injEq] at h
    obtain ⟨h1, -, -⟩ := h
    subst h1
    exact List.Sublist.refl []
  | cons lri rest ih =>
    intro lu b kept lu' b' h
    rw [retainUnlock] at h
    split at h
    · split at h
      · exact (ih _ _ _ _ _ h).cons lri
      · exact Option.noConfusion h
    · split at h
      · rename_i kept0 lu0 b0 heq
        simp only [Option.some.injEq, Prod.mk.injEq] at h
        rw [← h.1]
        exact (ih _ _ _ _ _ heq).cons₂ lri
      · exact Option.noConfusion h

theorem invAmap_unlockGo (uid owner : String) (rs : List String) :
    ∀ (s : LocalLocker) (b : Bool) (e : String) (r : Bool × String × LocalLocker),
    invAmap s.lock_map → unlockGo uid owner rs s b e = some r →
    invAmap r.2.2.lock_map := by
  induction rs with
  | nil =>
    intro s b e r h hgo
    simp only [unlockGo, Option.some.injEq] at hgo
    rw [← hgo]
    exact h
  | cons resource rest ih =>
    intro s b e r h hgo
    rw [unlockGo] at hgo
    split at hgo
    · exact ih _ _ _ _ h hgo
    · rename_i lris hfind
      have hg : goodSeq lris := invAmap_goodSeq_of_find h hfind
      split at hgo
      · split at hgo
        · exact Option.noConfusion hgo
        · rename_i kept lu' b' heq
          refine ih _ _ _ _ ?_ hgo
          have hk : goodSeq kept :=
            goodSeq_sublist (retainUnlock_sublist uid owner lris _ _ _ _ _ heq) hg
          by_cases he : kept.isEmpty
          · simpa [he] using invAmap_remove (k := resource) h
          · simpa [he] using invAmap_insert h hk
      · refine ih _ _ _ _ ?_ hgo
        by_cases he : lris.isEmpty
        · simpa [he] using invAmap_remove (k := resource) h
        · simpa [he] using h

theorem invAmap_unlock {s : LocalLocker} {args : LockArgs} {r : Except String Bool}
    {s' : LocalLocker} (h : invAmap s.lock_map) (hu : unlock s args = some (r, s')) :
    invAmap s'.lock_map := by
  unfold unlock at hu
  split at hu
  · simp only [Option.some.injEq, Prod.mk.injEq] at hu
    rw [← hu.2]
    exact h
  · split at hu
    · exact Option.noConfusion hu
    · rename_i reply einfo st heq
      simp only [Option.some.injEq, Prod.mk.injEq] at hu
      rw [← hu.2]
      exact invAmap_unlockGo _ _ _ _ _ _ _ h heq

theorem invAmap_rlock (now : Nat) (s : LocalLocker) (args : LockArgs)
    (h : invAmap s.lock_map) : invAmap (rlock now s args).2.lock_map := by
  unfold rlock
  split
  · rename_i resource
    split
    · rename_i lris hfind
      split
      · exact h
      · rename_i hwl
        refine invAmap_insert h ?_
        refine goodSeq_append_reader ?_ rfl
        exact goodSeq_not_writelock (invAmap_goodSeq_of_find h hfind)
          (Bool.of_not_eq_true hwl)
    · exact invAmap_insert h (goodSeq_append_reader (l := []) (by simp) rfl)
  · exact h

theorem invAmap_runlock {s : LocalLocker} {args : LockArgs} {r : Except String Bool}
    {s' : LocalLocker} (h : invAmap s.lock_map) (hu : runlock s args = some (r, s')) :
    invAmap s'.lock_map := by
  unfold runlock at hu
  split at hu
  · rename_i resource hres
    split at hu
    · rename_i lris hfind
      have hg : goodSeq lris := invAmap_goodSeq_of_find h hfind
      split at hu
      · simp only [Option.some.injEq, Prod.mk.injEq] at hu
        rw [← hu.2]
        exact h
      · split at hu
        · exact Option.noConfusion hu
        · rename_i kept lu' b' heq
          simp only [Option.some.injEq, Prod.mk.injEq] at hu
          rw [← hu.2]
          have hk : goodSeq kept :=
            goodSeq_sublist (retainUnlock_sublist _ _ lris _ _ _ _ _ heq) hg
          by_cases he : kept.isEmpty
          · simpa [he] using invAmap_remove (k := resource) h
          · simpa [he] using invAmap_insert h hk
    · simp only [Option.some.injEq, Prod.mk.injEq] at hu
      rw [← hu.2]
      exact h
  · simp only [Option.some.injEq, Prod.mk.injEq] at hu
    rw [← hu.2]
    exact h

theorem refresh_lock_map_eq {s : LocalLocker} {args : LockArgs} {r : Except String Bool}
    {s' : LocalLocker} (hu : refresh s args = some (r, s')) :
    s'.lock_map = s.lock_map := by
  unfold refresh at hu
  split at hu
  · simp only [Option.some.injEq, Prod.mk.injEq] at hu
    rw [← hu.2]
  · split at hu
    · exact Option.noConfusion hu
    · simp only [Option.some.injEq, Prod.mk.injEq] at hu
      rw [← hu.2]

theorem invAmap_forceGo (uid owner : String) (lu : List (String × String)) (fuel : Nat) :
    ∀ (idx : Nat) (lm : List (String × List LockRequesterInfo))
    (rmRes rmIds : List String)
    (r : Bool × List (String × List LockRequesterInfo) × List String × List String),
    invAmap lm → forceGo uid owner lu fuel idx lm rmRes rmIds = some r →
    invAmap r.2.1 := by
  induction fuel with
  | zero =>
    intro idx lm rmRes rmIds r h hgo
    exact Option.noConfusion hgo
  | succ f ih =>
    intro idx lm rmRes rmIds r h hgo
    rw [forceGo] at hgo
    split at hgo
    · simp only [Option.some.injEq] at hgo
      rw [← hgo]
      exact h
    · split at hgo
      · exact ih _ _ _ _ _ h hgo
      · rename_i resource _ lris hfind
        refine ih _ _ _ _ _ ?_ hgo
        exact invAmap_insert h
          (goodSeq_sublist (List.filter_sublist lris) (invAmap_goodSeq_of_find h hfind))

theorem invAmap_force_unlock {s : LocalLocker} {args : LockArgs} {r : Except String Bool}
    {s' : LocalLocker} (h : invAmap s.lock_map) (hu : force_unlock s args = some (r, s')) :
    invAmap s'.lock_map := by
  unfold force_unlock at hu
  split at hu
  · simp only [Option.some.injEq, Prod.mk.injEq] at hu
    rw [← hu.2]
    clear hu
    induction args.resources generalizing s with
    | nil => exact h
    | cons a t ih =>
      rw [List.foldl_cons]
      refine ih (s := ?_) ?_
      dsimp only
      split
      · rename_i lris hfind
        by_cases he : lris.isEmpty
        · simpa [he] using invAmap_remove (k := a) h
        · simpa [he] using h
      · exact h
  · split at hu
    · exact Option.noConfusion hu
    · rename_i reply lm rmRes rmIds heq
      simp only [Option.some.injEq, Prod.mk.injEq] at hu
      rw [← hu.2]
      exact invAmap_foldl_remove rmRes lm (invAmap_forceGo _ _ _ _ _ _ _ _ _ h heq)

theorem invAmap_expire (now : Nat) (s : LocalLocker) (interval : Nat)
    (h : invAmap s.lock_map) : invAmap (expire_old_locks now s interval).lock_map := by
  intro p hp
  rcases List.mem_map.mp hp with ⟨q, hq, rfl⟩
  exact goodSeq_sublist (List.filter_sublist q.2) (h q hq)

theorem invAmap_step {s s' : LocalLocker} (h : invAmap s.lock_map) (hs : Step s s') :
    invAmap s'.lock_map := by
  cases hs with
  | oplock now s args => exact invAmap_lock now s args h
  | opunlock s args r s' hu => exact invAmap_unlock h hu
  | oprlock now s args => exact invAmap_rlock now s args h
  | oprunlock s args r s' hu => exact invAmap_runlock h hu
  | oprefresh s args r s' hu => exact (refresh_lock_map_eq hu) ▸ h
  | opforce s args r s' hu => exact invAmap_force_unlock h hu
  | opexpire now s interval => exact invAmap_expire now s interval h

theorem invAmap_reachable {s : LocalLocker} (h : Reachable s) : invAmap s.lock_map := by
  induction h with
  | init => intro p hp; simp [LocalLocker.new] at hp
  | step _ hs ih => exact invAmap_step ih hs

/-- C1: in every reachable state, every resource present in the lock
table has a holder sequence that is either exactly one writer record or
zero-or-more reader records; a writer never coexists with another
record. -/
theorem C1_mutual_exclusion (s : LocalLocker) (h : Reachable s) (k : String)
    (lris : List LockRequesterInfo) (hf : findEntry k s.lock_map = some lris) :
    (∀ lri ∈ lris, lri.writer = false) ∨ (∃ lri, lris = [lri] ∧ lri.writer = true) :=
  invAmap_goodSeq_of_find (invAmap_reachable h) hf

/-- Witness for C1 at the concrete reachable state `sLock`: the sequence
holding `r` is the single writer record. -/
theorem C1_mutual_exclusion_witness :
    (∀ lri ∈ [mkWriter "r" argsW 0 0], lri.writer = false) ∨
    (∃ lri, [mkWriter "r" argsW 0 0] = [lri] ∧ lri.writer = true) :=
  C1_mutual_exclusion sLock reachable_sLock "r" [mkWriter "r" argsW 0 0] rfl

theorem mem_enumFrom_bounds {α : Type} {p : Nat × α} :
    ∀ {n : Nat} {l : List α}, p ∈ List.enumFrom n l → n ≤ p.1 ∧ p.2 ∈ l := by
  intro n l
  induction l generalizing n with
  | nil => intro h; simp at h
  | cons a t ih =>
    intro h
    rw [List.enumFrom_cons] at h
    rcases List.mem_cons.mp h with h1 | h1
    · subst h1
      exact ⟨Nat.le_refl n, by simp⟩
    · have h2 := ih h1
      exact ⟨by omega, List.mem_cons_of_mem _ h2.2⟩

theorem can_take_lock_aux (s : LocalLocker) (rs : List String) :
    ∀ b : Bool,
    (rs.foldl (fun acc x => (findEntry x s.lock_map).isNone && acc) b = true ↔
      b = true ∧ ∀ r ∈ rs, findEntry r s.lock_map = none) := by
  induction rs with
  | nil => intro b; simp
  | cons a t ih =>
    intro b
    rw [List.foldl_cons, ih]
    constructor
    · rintro ⟨h1, h2⟩
      simp only [Bool.and_eq_true] at h1
      refine ⟨h1.2, fun r hr => ?_⟩
      rcases List.mem_cons.mp hr with h3 | h3
      · subst h3
        exact Option.isNone_iff_eq_none.mp h1.1
      · exact h2 r h3
    · rintro ⟨h1, h2⟩
      refine ⟨?_, fun r hr => h2 r (List.mem_cons_of_mem _ hr)⟩
      simp only [Bool.and_eq_true]
      exact ⟨Option.isNone_iff_eq_none.mpr (h2 a (List.mem_cons_self a t)), h1⟩

theorem can_take_lock_iff (s : LocalLocker) (rs : List String) :
    can_take_lock s rs = true ↔ ∀ r ∈ rs, findEntry r s.lock_map = none := by
  unfold can_take_lock
  rw [can_take_lock_aux]
  simp

theorem foldl_lockStep_uid_untouched (args : LockArgs) (now : Nat) (l : List (Nat × String)) :
    ∀ (st : LocalLocker) (k : String), (∀ p ∈ l, k ≠ format_uuid args.uid p.1) →
    findEntry k ((l.foldl (lockStep args now) st).lock_uid) = findEntry k st.lock_uid := by
  induction l with
  | nil => intro st k _; rfl
  | cons p t ih =>
    intro st k h
    rw [List.foldl_cons, ih _ k (fun q hq => h q (List.mem_cons_of_mem _ hq))]
    exact findEntry_insertEntry_ne (fun hc => h p (List.mem_cons_self p t) hc.symm) _ _

theorem foldl_lockStep_map_untouched (args : LockArgs) (now : Nat) (l : List (Nat × String)) :
    ∀ (st : LocalLocker) (k : String), (∀ p ∈ l, k ≠ p.2) →
    findEntry k ((l.foldl (lockStep args now) st).lock_map) = findEntry k st.lock_map := by
  induction l with
  | nil => intro st k _; rfl
  | cons p t ih =>
    intro st k h
    rw [List.foldl_cons, ih _ k (fun q hq => h q (List.mem_cons_of_mem _ hq))]
    exact findEntry_insertEntry_ne (fun hc => h p (List.mem_cons_self p t) hc.symm) _ _

theorem foldl_lockStep_uid (args : LockArgs) (now : Nat) (rs : List String) :
    ∀ (n : Nat) (st : LocalLocker) (i : Nat) (h : i < rs.length),
    findEntry (format_uuid args.uid (n + i))
      (((List.enumFrom n rs).foldl (lockStep args now) st).lock_uid) =
    some (rs.get ⟨i, h⟩) := by
  induction rs with
  | nil => intro n st i h; simp at h
  | cons r rest ih =>
    intro n st i h
    rw [List.enumFrom_cons, List.foldl_cons]
    cases i with
    | zero =>
      rw [foldl_lockStep_uid_untouched]
      · simpa using findEntry_insertEntry_self (format_uuid args.uid n) r st.lock_uid
      · intro p hp hc
        have hb := (mem_enumFrom_bounds hp).1
        have := format_uuid_inj_idx hc
        omega
    | succ i' =>
      have hadd : n + (i' + 1) = (n + 1) + i' := by omega
      rw [hadd]
      exact ih (n + 1) _ i' (by simpa using Nat.lt_of_succ_lt_succ h)

theorem foldl_lockStep_map_mem (args : LockArgs) (now : Nat) (rs : List String) :
    ∀ (n : Nat) (st : LocalLocker) (r : String), r ∈ rs →
    ∃ i : Nat, findEntry r (((List.enumFrom n rs).foldl (lockStep args now) st).lock_map) =
      some [mkWriter r args i now] := by
  induction rs with
  | nil => intro n st r hr; simp at hr
  | cons a rest ih =>
    intro n st r hr
    rw [List.enumFrom_cons, List.foldl_cons]
    by_cases hmem : r ∈ rest
    · exact ih (n + 1) _ r hmem
    · have hra : r = a := by
        rcases List.mem_cons.mp hr with h1 | h1
        · exact h1
        · exact absurd h1 hmem
      subst hra
      refine ⟨n, ?_⟩
      rw [foldl_lockStep_map_untouched]
      · simpa using findEntry_insertEntry_self r [mkWriter r args n now] st.lock_map
      · intro p hp hc
        exact hmem (hc ▸ (mem_enumFrom_bounds hp).2)

/-- C2, amended: exclusive acquisition is all-or-nothing over table-key
presence (not holder presence): if any resource of the batch is present
as a key (even with an empty holder sequence), `lock` returns `false`
with both maps unchanged; if no resource of the batch is a key, it
returns `true` and installs, at every batch position `i`, the
reverse-index entry `(uid, i) ↦ resource` and a single writer record
(with `group` set iff the batch has more than one resource). -/
theorem C2_amended (now : Nat) (s : LocalLocker) (args : LockArgs)
    (hlen : args.resources.length ≤ 1000) :
    ((∃ r ∈ args.resources, (findEntry r s.lock_map).isSome = true) →
      lock now s args = (Except.ok false, s)) ∧
    ((∀ r ∈ args.resources, findEntry r s.lock_map = none) →
      (lock now s args).1 = Except.ok true ∧
      ∀ (i : Nat) (h : i < args.resources.length),
        findEntry (format_uuid args.uid i) (lock now s args).2.lock_uid =
          some (args.resources.get ⟨i, h⟩) ∧
        ∃ lri, findEntry (args.resources.get ⟨i, h⟩) (lock now s args).2.lock_map =
            some [lri] ∧
          lri.writer = true ∧ lri.uid = args.uid ∧ lri.owner = args.owner ∧
          lri.group = decide (1 < args.resources.length)) := by
  have hmax : ¬ (MAX_DELETE_LIST < args.resources.length) := by
    unfold MAX_DELETE_LIST
    omega
  constructor
  · rintro ⟨r, hr, hsome⟩
    have hct : can_take_lock s args.resources = false := by
      rcases Bool.eq_false_or_eq_true (can_take_lock s args.resources) with h | h
      · have := (can_take_lock_iff s args.resources).mp h r hr
        rw [this] at hsome
        exact Bool.noConfusion hsome
      · exact h
    unfold lock
    rw [if_neg hmax, if_pos hct]
  · intro hall
    have hct : can_take_lock s args.resources = true := (can_take_lock_iff s args.resources).mpr hall
    have hlock : lock now s args =
        (Except.ok true, args.resources.enum.foldl (lockStep args now) s) := by
      unfold lock
      rw [if_neg hmax, if_neg (by simp [hct])]
    refine ⟨by rw [hlock], fun i h => ?_⟩
    constructor
    · have h1 := foldl_lockStep_uid args now args.resources 0 s i h
      rw [hlock]
      simpa using h1
    · have h2 := foldl_lockStep_map_mem args now args.resources 0 s
        (args.resources.get ⟨i, h⟩) (args.resources.get_mem _ _)
      rcases h2 with ⟨j, hj⟩
      rw [hlock]
      exact ⟨mkWriter _ args j now, by simpa using hj, rfl, rfl, rfl, rfl⟩

/-- Witness for C2 (amended) at a fresh table: locking `["r"]` with uid
`u1` succeeds and installs the reverse-index entry. -/
theorem C2_amended_witness :
    (lock 0 LocalLocker.new argsW).1 = Except.ok true ∧
    findEntry (format_uuid "u1" 0) (lock 0 LocalLocker.new argsW).2.lock_uid = some "r" := by
  have h := (C2_amended 0 LocalLocker.new argsW (by decide)).2 (fun r _ => rfl)
  refine ⟨h.1, ?_⟩
  have h2 := (h.2 0 (by decide)).1
  exact h2

theorem refreshGo_mapmiss (uid : String) (lm : List (String × List LockRequesterInfo))
    (lu : List (String × String)) :
    ∀ (m fuel idx : Nat) (r : String), m < fuel →
    findEntry (format_uuid uid idx) lu = some r →
    (∀ j, idx ≤ j → j < idx + m → ∃ rj, findEntry (format_uuid uid j) lu = some rj ∧
      (findEntry rj lm).isSome = true) →
    (∃ rm, findEntry (format_uuid uid (idx + m)) lu = some rm ∧ findEntry rm lm = none) →
    refreshGo uid lm lu fuel idx r =
      some (decide (0 < idx + m), removeEntry (format_uuid uid 0) lu) := by
  intro m
  induction m with
  | zero =>
    intro fuel idx r hfuel hstart hwalk hmiss
    rcases hmiss with ⟨rm, hrm, hnone⟩
    rw [Nat.add_zero] at hrm ⊢
    rw [hstart] at hrm
    have hr : rm = r := (Option.some.inj hrm).symm
    subst hr
    obtain ⟨f', rfl⟩ : ∃ f', fuel = f' + 1 := ⟨fuel - 1, by omega⟩
    simp only [refreshGo, hnone]
  | succ m ih =>
    intro fuel idx r hfuel hstart hwalk hmiss
    obtain ⟨f', rfl⟩ : ∃ f', fuel = f' + 1 := ⟨fuel - 1, by omega⟩
    obtain ⟨rj, hrj, hsome⟩ := hwalk idx (Nat.le_refl idx) (by omega)
    have hrr : rj = r := by
      rw [hstart] at hrj
      exact (Option.some.inj hrj).symm
    subst hrr
    rcases Option.isSome_iff_exists.mp hsome with ⟨lris, hlris⟩
    have hnext : ∃ r', findEntry (format_uuid uid (idx + 1)) lu = some r' := by
      by_cases hm : m = 0
      · subst hm
        rcases hmiss with ⟨rm, hrm, _⟩
        exact ⟨rm, by simpa using hrm⟩
      · obtain ⟨rj', hrj', _⟩ := hwalk (idx + 1) (by omega) (by omega)
        exact ⟨rj', hrj'⟩
    rcases hnext with ⟨r', hr'⟩
    have hrec := ih f' (idx + 1) r' (by omega) hr'
      (fun j hj1 hj2 => hwalk j (by omega) (by omega))
      (by
        rcases hmiss with ⟨rm, hrm, hn⟩
        refine ⟨rm, ?_, hn⟩
        rw [show idx + 1 + m = idx + (m + 1) from by omega]
        exact hrm)
    simp only [refreshGo, hlris, hr', hrec]
    rw [show idx + 1 + m = idx + (m + 1) from by omega]

theorem refreshGo_indexmiss (uid : String) (lm : List (String × List LockRequesterInfo))
    (lu : List (String × String)) :
    ∀ (m fuel idx : Nat) (r : String), 1 ≤ m → m ≤ fuel →
    findEntry (format_uuid uid idx) lu = some r →
    (∀ j, idx ≤ j → j < idx + m → ∃ rj, findEntry (format_uuid uid j) lu = some rj ∧
      (findEntry rj lm).isSome = true) →
    findEntry (format_uuid uid (idx + m)) lu = none →
    refreshGo uid lm lu fuel idx r = some (true, lu) := by
  intro m
  induction m with
  | zero => intro fuel idx r h1; omega
  | succ m ih =>
    intro fuel idx r _ hfuel hstart hwalk hmiss
    obtain ⟨f', rfl⟩ : ∃ f', fuel = f' + 1 := ⟨fuel - 1, by omega⟩
    obtain ⟨rj, hrj, hsome⟩ := hwalk idx (Nat.le_refl idx) (by omega)
    have hrr : rj = r := by
      rw [hstart] at hrj
      exact (Option.some.inj hrj).symm
    subst hrr
    rcases Option.isSome_iff_exists.mp hsome with ⟨lris, hlris⟩
    by_cases hm : m = 0
    · subst hm
      have hn1 : findEntry (format_uuid uid (idx + 1)) lu = none := by simpa using hmiss
      simp only [refreshGo, hlris, hn1]
    · obtain ⟨r', hr', _⟩ := hwalk (idx + 1) (by omega) (by omega)
      have hrec := ih f' (idx + 1) r' (by omega) (by omega) hr'
        (fun j hj1 hj2 => hwalk j (by omega) (by omega))
        (by
          rw [show idx + 1 + m = idx + (m + 1) from by omega]
          exact hmiss)
      simp only [refreshGo, hlris, hr', hrec]

/-- C6, amended: the heartbeat returns `false` when position 0 is
unmapped; a walk terminated at the first position `n` whose resolved
resource is missing from the lock table removes the reverse-index entry
at position 0 (not the stale position) and reports whether the walk
advanced past 0; a reverse-index miss after position 0 reports `true`. -/
theorem C6_amended (s : LocalLocker) (args : LockArgs) :
    (findEntry (format_uuid args.uid 0) s.lock_uid = none →
      refresh s args = some (Except.ok false, s)) ∧
    (∀ n : Nat,
      (∀ j, j < n → ∃ rj, findEntry (format_uuid args.uid j) s.lock_uid = some rj ∧
        (findEntry rj s.lock_map).isSome = true) →
      (∃ rn, findEntry (format_uuid args.uid n) s.lock_uid = some rn ∧
        findEntry rn s.lock_map = none) →
      refresh s args = some (Except.ok (decide (0 < n)),
        { s with lock_uid := removeEntry (format_uuid args.uid 0) s.lock_uid })) ∧
    (∀ n : Nat, 1 ≤ n →
      (∀ j, j < n → ∃ rj, findEntry (format_uuid args.uid j) s.lock_uid = some rj ∧
        (findEntry rj s.lock_map).isSome = true) →
      findEntry (format_uuid args.uid n) s.lock_uid = none →
      refresh s args = some (Except.ok true, s)) := by
  refine ⟨fun h0 => by simp only [refresh, h0], fun n hwalk hmiss => ?_, fun n hn hwalk hmiss => ?_⟩
  · have hall : ∀ i, i ≤ n → (findEntry (format_uuid args.uid i) s.lock_uid).isSome = true := by
      intro i hi
      rcases Nat.lt_or_ge i n with h | h
      · rcases hwalk i h with ⟨rj, hrj, _⟩
        rw [hrj]
        rfl
      · have : i = n := by omega
        subst this
        rcases hmiss with ⟨rm, hrm, _⟩
        rw [hrm]
        rfl
    have hlen := keys_present_length_le s.lock_uid n args.uid hall
    have h0 : ∃ r0, findEntry (format_uuid args.uid 0) s.lock_uid = some r0 := by
      rcases Option.isSome_iff_exists.mp (hall 0 (Nat.zero_le n)) with ⟨r0, hr0⟩
      exact ⟨r0, hr0⟩
    rcases h0 with ⟨r0, hr0⟩
    have hgo := refreshGo_mapmiss args.uid s.lock_map s.lock_uid n (s.lock_uid.length + 1) 0 r0
      (by omega) hr0 (fun j hj1 hj2 => hwalk j (by omega))
      (by
        rcases hmiss with ⟨rm, hrm, hn2⟩
        exact ⟨rm, by simpa using hrm, hn2⟩)
    rw [Nat.zero_add] at hgo
    simp only [refresh, hr0, hgo]
  · have hall : ∀ i, i ≤ n - 1 → (findEntry (format_uuid args.uid i) s.lock_uid).isSome = true := by
      intro i hi
      rcases hwalk i (by omega) with ⟨rj, hrj, _⟩
      rw [hrj]
      rfl
    have hlen := keys_present_length_le s.lock_uid (n - 1) args.uid hall
    have h0 : ∃ r0, findEntry (format_uuid args.uid 0) s.lock_uid = some r0 := by
      rcases hwalk 0 (by omega) with ⟨r0, hr0, _⟩
      exact ⟨r0, hr0⟩
    rcases h0 with ⟨r0, hr0⟩
    have hgo := refreshGo_indexmiss args.uid s.lock_map s.lock_uid n (s.lock_uid.length + 1) 0 r0
      hn (by omega) hr0 (fun j hj1 hj2 => hwalk j (by omega)) (by simpa using hmiss)
    simp only [refresh, hr0, hgo]

/-- Witness for C6 (amended) at the concrete state `sC6`: position 0
resolves to the still-locked `A`, position 1 to the vanished `B`, so the
walk stops at 1, cleans up the entry at position 0 and returns `true`. -/
theorem C6_amended_witness :
    refresh sC6 argsU = some (Except.ok true, ⟨sC6.lock_map, [("u1", "B")]⟩) := by
  have h := (C6_amended sC6 argsU).2.1 1
    (by
      intro j hj
      interval_cases j
      exact ⟨"A", rfl, rfl⟩)
    ⟨"B", rfl, rfl⟩
  simpa using h

theorem refreshGo_none_probes (uid : String) (lm : List (String × List LockRequesterInfo))
    (lu : List (String × String)) :
    ∀ (fuel idx : Nat) (r : String),
    findEntry (format_uuid uid idx) lu = some r →
    refreshGo uid lm lu fuel idx r = none →
    ∀ j, idx ≤ j → j < idx + fuel → (findEntry (format_uuid uid j) lu).isSome = true := by
  intro fuel
  induction fuel with
  | zero => intro idx r _ _ j h1 h2; omega
  | succ f ih =>
    intro idx r hstart hnone j h1 h2
    rw [refreshGo] at hnone
    rcases Nat.eq_or_lt_of_le h1 with rfl | hlt
    · rw [hstart]
      rfl
    · split at hnone
      · exact Option.noConfusion hnone
      · split at hnone
        · exact Option.noConfusion hnone
        · rename_i r' hr'
          exact ih (idx + 1) r' hr' hnone j (by omega) (by omega)

/-- The fuel `lock_uid.length + 1` is exact for the `refresh` loop: the
embedded `refresh` never reports fuel exhaustion, so it models the
unbounded source loop faithfully. -/
theorem refresh_isSome (s : LocalLocker) (args : LockArgs) : (refresh s args).isSome = true := by
  unfold refresh
  split
  · rfl
  · rename_i r0 hr0
    split
    · rename_i hnone
      exfalso
      have hall := refreshGo_none_probes args.uid s.lock_map s.lock_uid
        (s.lock_uid.length + 1) 0 r0 hr0 hnone
      have := keys_present_length_le s.lock_uid s.lock_uid.length args.uid
        (fun i hi => hall i (Nat.zero_le i) (by omega))
      omega
    · rfl

theorem forceGo_none_probes (uid owner : String) (lu : List (String × String)) :
    ∀ (fuel idx : Nat) (lm : List (String × List LockRequesterInfo)) (rmRes rmIds : List String),
    forceGo uid owner lu fuel idx lm rmRes rmIds = none →
    ∀ j, idx ≤ j → j < idx + fuel → (findEntry (format_uuid uid j) lu).isSome = true := by
  intro fuel
  induction fuel with
  | zero => intro idx lm rmRes rmIds _ j h1 h2; omega
  | succ f ih =>
    intro idx lm rmRes rmIds hnone j h1 h2
    rw [forceGo] at hnone
    split at hnone
    · exact Option.noConfusion hnone
    · rename_i resource hres
      rcases Nat.eq_or_lt_of_le h1 with rfl | hlt
      · rw [hres]
        rfl
      · split at hnone
        · exact ih (idx + 1) _ _ _ hnone j (by omega) (by omega)
        · exact ih (idx + 1) _ _ _ hnone j (by omega) (by omega)

/-- The fuel `lock_uid.length + 1` is exact for the targeted
`force_unlock` loop as well: the embedded `force_unlock` never reports
fuel exhaustion. -/
theorem force_unlock_isSome (s : LocalLocker) (args : LockArgs) :
    (force_unlock s args).isSome = true := by
  unfold force_unlock
  split
  · rfl
  · split
    · rename_i hnone
      exfalso
      have hall := forceGo_none_probes args.uid args.owner s.lock_uid
        (s.lock_uid.length + 1) 0 s.lock_map [] [] hnone
      have := keys_present_length_le s.lock_uid s.lock_uid.length args.uid
        (fun i hi => hall i (Nat.zero_le i) (by omega))
      omega
    · rfl

theorem findEntry_map_value {β γ : Type} (g : β → γ) (k : String) :
    ∀ m : List (String × β),
    findEntry k (m.map (fun p => (p.1, g p.2))) = (findEntry k m).map g := by
  intro m
  induction m with
  | nil => rfl
  | cons p t ih =>
    obtain ⟨k', v⟩ := p
    by_cases hk : k' = k
    · simp [findEntry, hk]
    · simp [findEntry, hk, ih]

/-- C7: the expiry sweep keeps, in every resource's sequence, exactly the
records refreshed within the TTL (`now - last_refresh ≤ interval`),
preserving every table key (a key whose sequence empties keeps an empty
sequence), removes the reverse-index key of every dropped record, leaves
every other reverse-index entry unchanged, and is a total function (it
cannot fail). -/
theorem C7_expire_contract (now interval : Nat) (s : LocalLocker)
    (hnd : (s.lock_uid.map Prod.fst).Nodup) :
    (∀ k lris, findEntry k s.lock_map = some lris →
      findEntry k (expire_old_locks now s interval).lock_map =
        some (lris.filter (fun lri => now - lri.time_last_refresh ≤ interval))) ∧
    (∀ k, findEntry k s.lock_map = none →
      findEntry k (expire_old_locks now s interval).lock_map = none) ∧
    (∀ k, k ∈ expiredIds now interval s →
      findEntry k (expire_old_locks now s interval).lock_uid = none) ∧
    (∀ k, k ∉ expiredIds now interval s →
      findEntry k (expire_old_locks now s interval).lock_uid = findEntry k s.lock_uid) := by
  refine ⟨?_, ?_, ?_, ?_⟩
  · intro k lris h
    show findEntry k (s.lock_map.map
      (fun p => (p.1, p.2.filter (fun lri => now - lri.time_last_refresh ≤ interval)))) = _
    rw [findEntry_map_value, h]
    rfl
  · intro k h
    show findEntry k (s.lock_map.map
      (fun p => (p.1, p.2.filter (fun lri => now - lri.time_last_refresh ≤ interval)))) = _
    rw [findEntry_map_value, h]
    rfl
  · intro k hk
    exact findEntry_foldl_removeEntry_mem (expiredIds now interval s) s.lock_uid k hk hnd
  · intro k hk
    exact findEntry_foldl_removeEntry_not_mem (expiredIds now interval s) s.lock_uid k hk

/-- Witness for C7 at the concrete state `sLock` with clock 1 and TTL 0:
the writer of `r` expires, `r` keeps its key with an empty sequence, and
the reverse-index key `u10` is removed. -/
theorem C7_expire_contract_witness :
    findEntry "r" (expire_old_locks 1 sLock 0).lock_map = some [] ∧
    findEntry "u10" (expire_old_locks 1 sLock 0).lock_uid = none := by
  have h := C7_expire_contract 1 0 sLock (by decide)
  constructor
  · have h1 := h.1 "r" [mkWriter "r" argsW 0 0] rfl
    rw [h1]
    rfl
  · exact h.2.2.1 "u10" (by decide)

/-- C8: shared acquisition errors when more than one resource is given;
on a single exclusively-held resource it returns `false` (not an error)
with the state unchanged; on a single resource that is not exclusively
held (absent, empty, or read-locked) it appends a reader record, indexes
`(uid, 0)`, and returns `true`. -/
theorem C8_rlock_contract (now : Nat) (s : LocalLocker) (args : LockArgs) :
    (1 < args.resources.length →
      rlock now s args =
        (Except.error "internal error: localLocker.RLock called with more than one resource",
          s)) ∧
    (∀ r, args.resources = [r] →
      (∀ lris, findEntry r s.lock_map = some lris → is_write_lock lris = true →
        rlock now s args = (Except.ok false, s)) ∧
      ((∀ lris, findEntry r s.lock_map = some lris → is_write_lock lris = false) →
        (rlock now s args).1 = Except.ok true ∧
        findEntry r (rlock now s args).2.lock_map =
          some (((findEntry r s.lock_map).getD []) ++ [mkReader r args now]) ∧
        findEntry (format_uuid args.uid 0) (rlock now s args).2.lock_uid = some r)) := by
  constructor
  · intro hlen
    rcases hres : args.resources with _ | ⟨a, _ | ⟨b, t⟩⟩
    · rw [hres] at hlen
      simp at hlen
    · rw [hres] at hlen
      simp at hlen
    · simp only [rlock, hres]
  · intro r hres
    constructor
    · intro lris hf hwl
      simp only [rlock, hres, hf, hwl, if_true]
    · intro hns
      cases hfind : findEntry r s.lock_map with
      | none =>
        refine ⟨?_, ?_, ?_⟩
        · simp only [rlock, hres, hfind]
        · simp only [rlock, hres, hfind]
          rw [findEntry_insertEntry_self]
          rfl
        · simp only [rlock, hres, hfind]
          exact findEntry_insertEntry_self _ _ _
      | some lris =>
        have hwl := hns lris hfind
        refine ⟨?_, ?_, ?_⟩
        · simp [rlock, hres, hfind, hwl]
        · simp only [rlock, hres, hfind, hwl, Bool.false_eq_true, if_false]
          rw [findEntry_insertEntry_self]
          rfl
        · simp only [rlock, hres, hfind, hwl, Bool.false_eq_true, if_false]
          exact findEntry_insertEntry_self _ _ _

/-- Witness for C8: on `sLock` (where `r` is write-locked) a second
requester's shared acquisition returns `false` without error; on a fresh
table it succeeds and indexes `(u1, 0)`. -/
theorem C8_rlock_contract_witness :
    rlock 0 sLock argsW2 = (Except.ok false, sLock) ∧
    (rlock 0 LocalLocker.new argsW).1 = Except.ok true ∧
    findEntry (format_uuid "u1" 0) (rlock 0 LocalLocker.new argsW).2.lock_uid = some "r" := by
  refine ⟨?_, ?_, ?_⟩
  · exact ((C8_rlock_contract 0 sLock argsW2).2 "r" rfl).1 [mkWriter "r" argsW 0 0] rfl rfl
  · exact (((C8_rlock_contract 0 LocalLocker.new argsW).2 "r" rfl).2
      (fun lris h => Option.noConfusion h)).1
  · exact (((C8_rlock_contract 0 LocalLocker.new argsW).2 "r" rfl).2
      (fun lris h => Option.noConfusion h)).2.2

end RustFSLock
